import Mathlib

/-!
Verification of the simecs Entity-Component-System runtime.

This file gives a shallow embedding of the component store (`ArchetypeTable`,
src/archetypeTable.ts), the `App` runner (src/app.ts) and the schedule/system/
hook contracts, and proves properties about them.

Modelling conventions:
* JS `Map<Entity, Component[]>` becomes an association list
  `List (Int × List Component)` kept in insertion order; `Map.get` is first
  lookup, `Map.set` replaces the value at an existing key in place and
  otherwise appends the new binding at the end, `Map.delete` removes the
  binding with the key.  A real `Map` never holds two bindings with the same
  key, so theorems quantifying over arbitrary table states carry that
  representation invariant (`Nodup` on the keys) as a hypothesis.
* A component's runtime class (used by `instanceof` in `has`/`get`/`find`)
  becomes a numeric tag `ctag`; the repository's component hierarchy is flat
  (Position and Velocity extend Component directly), so `instanceof` is tag
  equality.
* Async execution in `App.step` is modelled by the sequential trace of
  invocations: the code awaits every suspension point in turn, so each
  invocation runs to completion before the next begins and the observable
  behaviour is the ordered list of invocation events plus the threaded store
  state.
-/

/-- Entities are opaque numeric identifiers (src/entity.ts: `type Entity = number`). -/
abbrev Entity := Int

/-- A component class, i.e. the runtime type identity that `instanceof`
checks against (a `ComponentConstructor` in src/archetypeTable.ts). -/
abbrev ComponentClass := Nat

/-- A component value: its runtime class tag plus its data fields
(e.g. `Position(x, y)` and `Velocity(x, y)` carry two numbers). -/
structure Component where
  ctag : ComponentClass
  payload : List Int
deriving DecidableEq

/-- `c instanceof k`: the repository's component classes extend `Component`
directly, so the check is class-tag equality. -/
def Component.isInstanceOf (c : Component) (k : ComponentClass) : Bool :=
  c.ctag = k

/-- The `Position` component class tag. -/
def positionClass : ComponentClass := 0

/-- The `Velocity` component class tag. -/
def velocityClass : ComponentClass := 1

/-- `new Position(x, y)` (src/core/components/position.ts). -/
def Position (x y : Int) : Component := ⟨positionClass, [x, y]⟩

/-- `new Velocity(x, y)` (src/core/components/velocity.ts). -/
def Velocity (x y : Int) : Component := ⟨velocityClass, [x, y]⟩

/-- A `Query`: one entity paired with the components a `find` call matched
for it (class `Query` in src/archetypeTable.ts). -/
structure Query where
  entity : Entity
  components : List Component
deriving DecidableEq

/-- `Map.get`: value of the first binding with the given key. -/
def mapGet (t : List (Entity × List Component)) (e : Entity) :
    Option (List Component) :=
  match t with
  | [] => none
  | p :: rest => if p.1 = e then some p.2 else mapGet rest e

/-- `Map.set`: replace the value at an existing key in place, otherwise
append the new binding at the end (JS `Map` preserves insertion order). -/
def mapSet (t : List (Entity × List Component)) (e : Entity)
    (cs : List Component) : List (Entity × List Component) :=
  match t with
  | [] => [(e, cs)]
  | p :: rest => if p.1 = e then (e, cs) :: rest else p :: mapSet rest e cs

/-- `Map.delete`: remove the binding with the given key. -/
def mapDelete (t : List (Entity × List Component)) (e : Entity) :
    List (Entity × List Component) :=
  match t with
  | [] => []
  | p :: rest => if p.1 = e then rest else p :: mapDelete rest e

/-- The component store: a map from entities to their ordered component
collections (class `ArchetypeTable` in src/archetypeTable.ts). -/
structure ArchetypeTable where
  table : List (Entity × List Component)
deriving DecidableEq

namespace ArchetypeTable

/-- `new ArchetypeTable()`. -/
def empty : ArchetypeTable := ⟨[]⟩

/-- `add(entity, component)`: append one component to the entity's
collection, creating the collection if absent. -/
def add (t : ArchetypeTable) (entity : Entity) (component : Component) :
    ArchetypeTable :=
  match mapGet t.table entity with
  | none => ⟨mapSet t.table entity [component]⟩
  | some components => ⟨mapSet t.table entity (components ++ [component])⟩

/-- `addAll(entity, newComponents)` as in the first observed version of
src/archetypeTable.ts: when the entity already has components the code runs
`components.push(...components)`, re-appending the entity's existing
components onto themselves and dropping the new batch. -/
def addAllV1 (t : ArchetypeTable) (entity : Entity)
    (newComponents : List Component) : ArchetypeTable :=
  match mapGet t.table entity with
  | none => ⟨mapSet t.table entity newComponents⟩
  | some components => ⟨mapSet t.table entity (components ++ components)⟩

/-- `addAll(entity, components)` as in the corrected version of
src/archetypeTable.ts (the one the repository's tests exercise):
`item.push(...components)` appends the new batch after the existing set. -/
def addAll (t : ArchetypeTable) (entity : Entity)
    (components : List Component) : ArchetypeTable :=
  match mapGet t.table entity with
  | none => ⟨mapSet t.table entity components⟩
  | some item => ⟨mapSet t.table entity (item ++ components)⟩

/-- `exists(entity)`: `this.table.has(entity)`. -/
def existsEntity (t : ArchetypeTable) (entity : Entity) : Bool :=
  (mapGet t.table entity).isSome

/-- `has(entity, componentClass)`. -/
def has (t : ArchetypeTable) (entity : Entity) (componentClass : ComponentClass) :
    Bool :=
  match mapGet t.table entity with
  | none => false
  | some components => components.any (fun c => c.isInstanceOf componentClass)

/-- `hasAll(entity, componentClasses)`. -/
def hasAll (t : ArchetypeTable) (entity : Entity)
    (componentClasses : List ComponentClass) : Bool :=
  match mapGet t.table entity with
  | none => false
  | some entityComponents =>
      componentClasses.all (fun componentClass =>
        entityComponents.any (fun c => c.isInstanceOf componentClass))

/-- `get(entity, component)`: first stored component matching the class. -/
def get (t : ArchetypeTable) (entity : Entity) (component : ComponentClass) :
    Option Component :=
  match mapGet t.table entity with
  | none => none
  | some components => components.find? (fun c => c.isInstanceOf component)

/-- `getAll(entity)`. -/
def getAll (t : ArchetypeTable) (entity : Entity) : Option (List Component) :=
  mapGet t.table entity

/-- `find(...componentClasses)`: scan every entity in insertion order, match
one component per requested class (first match per class) and keep the
entity iff every class matched, with the tuple in requested-class order. -/
def find (t : ArchetypeTable) (componentClasses : List ComponentClass) :
    List Query :=
  t.table.filterMap (fun p =>
    let matchedComponents :=
      componentClasses.map (fun componentClass =>
        p.2.find? (fun c => c.isInstanceOf componentClass))
    if matchedComponents.all Option.isSome then
      some ⟨p.1, matchedComponents.filterMap id⟩
    else
      none)

/-- `delete(entity)`: `this.table.delete(entity)`. -/
def delete (t : ArchetypeTable) (entity : Entity) : ArchetypeTable :=
  ⟨mapDelete t.table entity⟩

end ArchetypeTable

/-- A schedule (class `Schedule` in src/schedule.ts): a name and an integer
order. `sid` models JS object identity, which the runner compares with `===`;
distinct schedule objects in one app state are given distinct `sid`s. The
`shouldRun` predicate is an external stateful closure consulted only by
`run()`, which none of the embedded operations below call, so it is not part
of the state. -/
structure Schedule where
  sid : Nat
  name : String
  order : Int
deriving DecidableEq

/-- The built-in startup schedule (`new StartupSchedule()`,
src/core/schedules/startup.ts): name "startup", order 0. -/
def startupSchedule : Schedule := ⟨0, "startup", 0⟩

/-- The built-in update schedule (`new UpdateSchedule()`,
src/core/schedules/update.ts): name "update", order 1. -/
def updateSchedule : Schedule := ⟨1, "update", 1⟩

/-- A system instance (abstract class `System` in src/system.ts), already
bound to the shared store: `select()` reads the current store, `update`
may mutate it. Both are external capabilities the runner treats as black
boxes. -/
structure SystemModel where
  select : ArchetypeTable → List Query
  update : ArchetypeTable → Entity → List Component → ArchetypeTable

/-- A hook (abstract class `Hook` in src/hook.ts): each callback is
independently optional (the code checks `if (hook.beforeSystemUpdate)`),
receives the matched query batch and may mutate the store through the live
component references. -/
structure HookModel where
  beforeSystemUpdate : Option (ArchetypeTable → List Query → ArchetypeTable)
  afterSystemUpdate : Option (ArchetypeTable → List Query → ArchetypeTable)

/-- One registered (schedule, system) entry of `App.scheduledSystems`. -/
structure ScheduledSystem where
  schedule : Schedule
  system : SystemModel

/-- The runner state (class `App` in src/app.ts). -/
structure App where
  archetypeTable : ArchetypeTable
  scheduledSystems : List ScheduledSystem
  hooks : List HookModel
  lastEntityId : Int
  currentSchedule : Option Schedule

namespace App

/-- `new App()`. -/
def new : App :=
  { archetypeTable := ArchetypeTable.empty
    scheduledSystems := []
    hooks := []
    lastEntityId := 0
    currentSchedule := none }

/-- `addEntity(id, ...components)`. A JS `throw` leaves the already mutated
object behind, so the result is the optional error message paired with the
app state after the call: `id === null` consumes `lastEntityId++` (the
counter is incremented even when the call then fails), a duplicate id is
reported before anything is attached, otherwise the batch is attached via
`addAll`. -/
def addEntity (app : App) (id : Option Entity) (components : List Component) :
    Option String × App :=
  let idApp : Entity × App :=
    match id with
    | none => (app.lastEntityId, { app with lastEntityId := app.lastEntityId + 1 })
    | some i => (i, app)
  let id := idApp.1
  let app := idApp.2
  if app.archetypeTable.existsEntity id then
    (some ("Entity with id " ++ toString id ++ " already exists"), app)
  else
    (none, { app with archetypeTable := app.archetypeTable.addAll id components })

/-- `addSystem(schedule, system)`: push the (schedule, system instance)
pair. The factory injection of the store reference is outside the state
model — `system` here is the constructed instance. -/
def addSystem (app : App) (schedule : Schedule) (system : SystemModel) : App :=
  { app with scheduledSystems := app.scheduledSystems ++ [⟨schedule, system⟩] }

/-- `addHook(hook)`. -/
def addHook (app : App) (hook : HookModel) : App :=
  { app with hooks := app.hooks ++ [hook] }

end App

/-- `Array.prototype.indexOf` with `===` comparison: index of the first
occurrence, `-1` when absent. -/
def jsIndexOf (l : List Schedule) (s : Schedule) : Int :=
  match l with
  | [] => -1
  | x :: xs =>
      if x = s then 0
      else
        let r := jsIndexOf xs s
        if r < 0 then -1 else r + 1

/-- Insert a schedule into a list sorted ascending by `order`, before the
first element of greater-or-equal order. -/
def insertByOrder (s : Schedule) : List Schedule → List Schedule
  | [] => [s]
  | x :: xs => if s.order ≤ x.order then s :: x :: xs else x :: insertByOrder s xs

/-- `schedules.sort((a, b) => a.order - b.order)`: `Array.prototype.sort`
is a stable sort, and for a total preorder the stable sorted permutation is
unique, so this insertion sort computes exactly the JS result. -/
def sortByOrder : List Schedule → List Schedule
  | [] => []
  | x :: xs => insertByOrder x (sortByOrder xs)

namespace App

/-- `advanceSchedule()`: a fatal error with zero registered systems;
on the first call (cursor `null`) sort the per-entry schedule list by
ascending order and take element 0; on later calls take the element after
the first occurrence (`indexOf`) of the current schedule in the *unsorted*
registration-order list, or `null` past the end. -/
def advanceSchedule (app : App) : Option String × App :=
  if app.scheduledSystems.length = 0 then
    (some "No systems to run", app)
  else
    let schedules := app.scheduledSystems.map (fun ss => ss.schedule)
    match app.currentSchedule with
    | none =>
        (none, { app with currentSchedule := (sortByOrder schedules)[0]? })
    | some cur =>
        (none, { app with currentSchedule :=
                   schedules[(jsIndexOf schedules cur + 1).toNat]? })

end App

/-- One observable invocation inside a `step` call, named by position:
`sysIdx` is the system's position among the entries matching the stepped
schedule, `hookIdx` the hook's position in the registration list, and
`queryIdx` the query's position in the system's `select()` result. Because
`step` awaits every suspension point before starting the next one, each
invocation begins and completes at its position in the trace. -/
inductive SEvent where
  | beforeHook (sysIdx hookIdx : Nat)
  | update (sysIdx queryIdx : Nat)
  | afterHook (sysIdx hookIdx : Nat)
deriving DecidableEq

/-- The system an invocation event belongs to. -/
def SEvent.sysIdx : SEvent → Nat
  | .beforeHook i _ => i
  | .update i _ => i
  | .afterHook i _ => i

/-- The `for (const hook of this.hooks)` loop before a system's updates:
each hook defining `beforeSystemUpdate` is invoked and awaited in
registration order; the store is threaded, the trace records the calls. -/
def runBeforeHooks (sysIdx : Nat) (hooks : List HookModel) (hookIdx : Nat)
    (queries : List Query) (t : ArchetypeTable) :
    ArchetypeTable × List SEvent :=
  match hooks with
  | [] => (t, [])
  | h :: rest =>
      match h.beforeSystemUpdate with
      | some f =>
          let t1 := f t queries
          let r := runBeforeHooks sysIdx rest (hookIdx + 1) queries t1
          (r.1, SEvent.beforeHook sysIdx hookIdx :: r.2)
      | none => runBeforeHooks sysIdx rest (hookIdx + 1) queries t

/-- The `for (const query of queries)` loop: `update` is invoked once per
matched query in result order, each awaited before the next begins. -/
def runUpdates (sysIdx : Nat) (sys : SystemModel) (queryIdx : Nat)
    (queries : List Query) (t : ArchetypeTable) :
    ArchetypeTable × List SEvent :=
  match queries with
  | [] => (t, [])
  | q :: rest =>
      let t1 := sys.update t q.entity q.components
      let r := runUpdates sysIdx sys (queryIdx + 1) rest t1
      (r.1, SEvent.update sysIdx queryIdx :: r.2)

/-- The `for (const hook of this.hooks)` loop after a system's updates. -/
def runAfterHooks (sysIdx : Nat) (hooks : List HookModel) (hookIdx : Nat)
    (queries : List Query) (t : ArchetypeTable) :
    ArchetypeTable × List SEvent :=
  match hooks with
  | [] => (t, [])
  | h :: rest =>
      match h.afterSystemUpdate with
      | some f =>
          let t1 := f t queries
          let r := runAfterHooks sysIdx rest (hookIdx + 1) queries t1
          (r.1, SEvent.afterHook sysIdx hookIdx :: r.2)
      | none => runAfterHooks sysIdx rest (hookIdx + 1) queries t

/-- The body of `step`'s outer loop for one scheduled system: call
`select()`; if the result is empty, `continue` (nothing runs); otherwise
before-hooks, then per-query updates, then after-hooks. -/
def stepOne (hooks : List HookModel) (sysIdx : Nat) (sys : SystemModel)
    (t : ArchetypeTable) : ArchetypeTable × List SEvent :=
  let queries := sys.select t
  if queries.length = 0 then (t, [])
  else
    let r1 := runBeforeHooks sysIdx hooks 0 queries t
    let r2 := runUpdates sysIdx sys 0 queries r1.1
    let r3 := runAfterHooks sysIdx hooks 0 queries r2.1
    (r3.1, r1.2 ++ (r2.2 ++ r3.2))

/-- Systems paired with their positions, starting at `k`. -/
def enumSystems (k : Nat) : List SystemModel → List (Nat × SystemModel)
  | [] => []
  | s :: rest => (k, s) :: enumSystems (k + 1) rest

/-- `step`'s outer loop over the (position, system) entries matching the
schedule, threading the store and concatenating the traces. -/
def stepGo (hooks : List HookModel) :
    List (Nat × SystemModel) → ArchetypeTable → ArchetypeTable × List SEvent
  | [], t => (t, [])
  | e :: rest, t =>
      let r1 := stepOne hooks e.1 e.2 t
      let r2 := stepGo hooks rest r1.1
      (r2.1, r1.2 ++ r2.2)

namespace App

/-- The systems whose registered schedule `===` the stepped schedule, in
registration order (`this.scheduledSystems.filter(...)`). -/
def matchedSystems (app : App) (schedule : Schedule) : List SystemModel :=
  (app.scheduledSystems.filter (fun ss => ss.schedule = schedule)).map
    (fun ss => ss.system)

/-- `step(schedule)`: run the matching systems in registration order; the
result is the store after the call and the sequential invocation trace. -/
def step (app : App) (schedule : Schedule) : ArchetypeTable × List SEvent :=
  stepGo app.hooks (enumSystems 0 (app.matchedSystems schedule))
    app.archetypeTable

/-- The store state `step(schedule)` has reached when the system at
position `i` of the matching list comes up (the threaded state after the
first `i` systems ran). -/
def stepPrefixState (app : App) (schedule : Schedule) (i : Nat) :
    ArchetypeTable :=
  (stepGo app.hooks (enumSystems 0 ((app.matchedSystems schedule).take i))
    app.archetypeTable).1

end App

/-- Positions (in registration order) of the hooks that define
`beforeSystemUpdate`. -/
def beforeHookIdxs : List HookModel → List Nat
  | [] => []
  | h :: rest =>
      if h.beforeSystemUpdate.isSome then
        0 :: (beforeHookIdxs rest).map (· + 1)
      else
        (beforeHookIdxs rest).map (· + 1)

/-- Positions (in registration order) of the hooks that define
`afterSystemUpdate`. -/
def afterHookIdxs : List HookModel → List Nat
  | [] => []
  | h :: rest =>
      if h.afterSystemUpdate.isSome then
        0 :: (afterHookIdxs rest).map (· + 1)
      else
        (afterHookIdxs rest).map (· + 1)

/-- The invocation block §4.6 of the specification prescribes for one
system at position `sysIdx` whose `select()` sees store `t`: nothing when
the selection is empty, otherwise every defined before-hook in hook
registration order, then one update per matched query in result order,
then every defined after-hook in hook registration order. -/
def specBlock (hooks : List HookModel) (sysIdx : Nat) (sys : SystemModel)
    (t : ArchetypeTable) : List SEvent :=
  let queries := sys.select t
  if queries.length = 0 then []
  else
    (beforeHookIdxs hooks).map (SEvent.beforeHook sysIdx) ++
      ((List.range queries.length).map (SEvent.update sysIdx) ++
        (afterHookIdxs hooks).map (SEvent.afterHook sysIdx))

/-- The store states each entry of `step`'s outer loop starts from. -/
def stepStates (hooks : List HookModel) :
    List (Nat × SystemModel) → ArchetypeTable → List ArchetypeTable
  | [], _ => []
  | e :: rest, t => t :: stepStates hooks rest (stepOne hooks e.1 e.2 t).1

/-! ### Association-list (JS `Map`) lemmas -/

theorem mapGet_mapSet_self (t : List (Entity × List Component)) (e : Entity)
    (cs : List Component) : mapGet (mapSet t e cs) e = some cs := by
  induction t with
  | nil => simp [mapGet, mapSet]
  | cons p rest ih =>
      by_cases h : p.1 = e
      · simp [mapGet, mapSet, h]
      · simp only [mapSet, if_neg h, mapGet, if_neg h]
        exact ih

theorem mapGet_mapSet_ne (t : List (Entity × List Component)) (e f : Entity)
    (cs : List Component) (h : f ≠ e) :
    mapGet (mapSet t e cs) f = mapGet t f := by
  induction t with
  | nil =>
      simp only [mapSet, mapGet, if_neg (Ne.symm h)]
  | cons p rest ih =>
      by_cases hp : p.1 = e
      · simp only [mapSet, if_pos hp, mapGet, if_neg (Ne.symm h)]
        rw [if_neg (fun hf : p.1 = f => h (hf ▸ hp))]
      · simp only [mapSet, if_neg hp, mapGet]
        by_cases hf : p.1 = f
        · simp only [if_pos hf]
        · simp only [if_neg hf]
          exact ih

theorem mem_mapSet (t : List (Entity × List Component)) (e : Entity)
    (cs : List Component) (p : Entity × List Component)
    (hp : p ∈ mapSet t e cs) : p = (e, cs) ∨ p ∈ t := by
  induction t with
  | nil => simpa [mapSet] using hp
  | cons q rest ih =>
      by_cases h : q.1 = e
      · simp only [mapSet, if_pos h] at hp
        rcases List.mem_cons.mp hp with h1 | h1
        · exact Or.inl h1
        · exact Or.inr (List.mem_cons_of_mem _ h1)
      · simp only [mapSet, if_neg h] at hp
        rcases List.mem_cons.mp hp with h1 | h1
        · exact Or.inr (h1 ▸ List.mem_cons_self _ _)
        · rcases ih h1 with h2 | h2
          · exact Or.inl h2
          · exact Or.inr (List.mem_cons_of_mem _ h2)

theorem mapGet_mem (t : List (Entity × List Component)) (e : Entity)
    (v : List Component) (h : mapGet t e = some v) : (e, v) ∈ t := by
  induction t with
  | nil => simp [mapGet] at h
  | cons p rest ih =>
      by_cases hp : p.1 = e
      · simp only [mapGet, if_pos hp, Option.some.injEq] at h
        have : p = (e, v) := by
          cases p
          simp_all
        exact this ▸ List.mem_cons_self _ _
      · simp only [mapGet, if_neg hp] at h
        exact List.mem_cons_of_mem _ (ih h)

theorem mapGet_eq_none_iff (t : List (Entity × List Component)) (e : Entity) :
    mapGet t e = none ↔ e ∉ t.map Prod.fst := by
  induction t with
  | nil => simp [mapGet]
  | cons p rest ih =>
      by_cases hp : p.1 = e
      · simp [mapGet, hp]
      · simp [mapGet, if_neg hp, ih, Ne.symm hp]

theorem mapGet_isSome_iff (t : List (Entity × List Component)) (e : Entity) :
    (mapGet t e).isSome = true ↔ e ∈ t.map Prod.fst := by
  cases h : mapGet t e with
  | none =>
      simp only [Option.isSome_none, Bool.false_eq_true, false_iff]
      exact (mapGet_eq_none_iff t e).mp h
  | some v =>
      simp only [Option.isSome_some, true_iff]
      exact List.mem_map_of_mem Prod.fst (mapGet_mem t e v h)

theorem not_mem_keys_mapDelete (t : List (Entity × List Component)) (e : Entity)
    (h : (t.map Prod.fst).Nodup) : e ∉ (mapDelete t e).map Prod.fst := by
  induction t with
  | nil => simp [mapDelete]
  | cons p rest ih =>
      simp only [List.map_cons, List.nodup_cons] at h
      by_cases hp : p.1 = e
      · simp only [mapDelete, if_pos hp]
        exact fun hmem => h.1 (hp ▸ hmem)
      · simp only [mapDelete, if_neg hp, List.map_cons, List.mem_cons]
        rintro (h1 | h1)
        · exact hp h1.symm
        · exact ih h.2 h1

theorem mapDelete_of_not_mem (t : List (Entity × List Component)) (e : Entity)
    (h : e ∉ t.map Prod.fst) : mapDelete t e = t := by
  induction t with
  | nil => simp [mapDelete]
  | cons p rest ih =>
      simp only [List.map_cons, List.mem_cons, not_or] at h
      simp only [mapDelete, if_neg (fun hp : p.1 = e => h.1 hp.symm)]
      rw [ih h.2]

theorem mem_mapDelete (t : List (Entity × List Component)) (e : Entity)
    (p : Entity × List Component) (hp : p ∈ mapDelete t e) : p ∈ t := by
  induction t with
  | nil => simp [mapDelete] at hp
  | cons q rest ih =>
      by_cases h : q.1 = e
      · simp only [mapDelete, if_pos h] at hp
        exact List.mem_cons_of_mem _ hp
      · simp only [mapDelete, if_neg h] at hp
        rcases List.mem_cons.mp hp with h1 | h1
        · exact h1 ▸ List.mem_cons_self _ _
        · exact List.mem_cons_of_mem _ (ih h1)

/-! ### C1: `addAll` append behaviour -/

/-- C1: the claim states that `addAll(e, cs)` appends exactly the new batch
`cs` after the entity's existing components. The first observed version of
`ArchetypeTable.addAll` instead re-appends the existing components onto
themselves and drops the batch: starting from entity 10 owning
`[Position(0,0)]`, adding the batch `[Velocity(1,1)]` leaves
`[Position(0,0), Position(0,0)]` rather than
`[Position(0,0), Velocity(1,1)]`. The corrected version (the one the
repository's tests require) satisfies the claim at the same input. -/
theorem addAllV1_breaks_append_contract :
    ((ArchetypeTable.empty.add 10 (Position 0 0)).addAllV1 10
        [Velocity 1 1]).getAll 10 = some [Position 0 0, Position 0 0] ∧
    ((ArchetypeTable.empty.add 10 (Position 0 0)).addAllV1 10
        [Velocity 1 1]).getAll 10 ≠
      some ([Position 0 0] ++ [Velocity 1 1]) ∧
    ((ArchetypeTable.empty.add 10 (Position 0 0)).addAll 10
        [Velocity 1 1]).getAll 10 =
      some ([Position 0 0] ++ [Velocity 1 1]) := by
  decide

/-! ### C4: `exists` iff at least one component -/

/-- Store states reachable through `add`, `addAll` and `delete` where no
`addAll` call ever installs an empty batch for an absent entity (the case
the counterexample below shows breaks the invariant). -/
inductive ReachableNE : ArchetypeTable → Prop where
  | empty : ReachableNE ArchetypeTable.empty
  | add (t : ArchetypeTable) (e : Entity) (c : Component) :
      ReachableNE t → ReachableNE (t.add e c)
  | addAll (t : ArchetypeTable) (e : Entity) (cs : List Component) :
      ReachableNE t → (t.existsEntity e = false → cs ≠ []) →
      ReachableNE (t.addAll e cs)
  | delete (t : ArchetypeTable) (e : Entity) :
      ReachableNE t → ReachableNE (t.delete e)

theorem reachableNE_values_nonempty (t : ArchetypeTable)
    (h : ReachableNE t) : ∀ p ∈ t.table, p.2 ≠ [] := by
  induction h with
  | empty => simp [ArchetypeTable.empty]
  | add t e c _ ih =>
      intro p hp
      cases hg : mapGet t.table e with
      | none =>
          rw [ArchetypeTable.add, hg] at hp
          rcases mem_mapSet _ _ _ _ hp with h1 | h1
          · simp [h1]
          · exact ih p h1
      | some cs =>
          rw [ArchetypeTable.add, hg] at hp
          rcases mem_mapSet _ _ _ _ hp with h1 | h1
          · simp [h1]
          · exact ih p h1
  | addAll t e cs _ hne ih =>
      intro p hp
      cases hg : mapGet t.table e with
      | none =>
          rw [ArchetypeTable.addAll, hg] at hp
          rcases mem_mapSet _ _ _ _ hp with h1 | h1
          · have hcs : cs ≠ [] := by
              apply hne
              simp [ArchetypeTable.existsEntity, hg]
            simpa [h1] using hcs
          · exact ih p h1
      | some old =>
          rw [ArchetypeTable.addAll, hg] at hp
          rcases mem_mapSet _ _ _ _ hp with h1 | h1
          · have hold : old ≠ [] := ih (e, old) (mapGet_mem _ _ _ hg)
            simp only [h1]
            exact fun hcontra => hold (List.append_eq_nil.mp hcontra).1
          · exact ih p h1
  | delete t e _ ih =>
      intro p hp
      exact ih p (mem_mapDelete _ _ _ hp)

/-- C4: in every state reachable through `add`, `addAll` and `delete` in
which no `addAll` installed an empty batch for an absent entity,
`exists(e)` is true iff the entity has at least one stored component.
(The unrestricted claim fails: see the counterexample below.) -/
theorem existsEntity_iff_nonempty_components (t : ArchetypeTable) (e : Entity)
    (h : ReachableNE t) :
    t.existsEntity e = true ↔ ∃ cs, t.getAll e = some cs ∧ cs ≠ [] := by
  constructor
  · intro hs
    obtain ⟨cs, hcs⟩ := Option.isSome_iff_exists.mp hs
    exact ⟨cs, hcs,
      reachableNE_values_nonempty t h (e, cs) (mapGet_mem _ _ _ hcs)⟩
  · rintro ⟨cs, hcs, -⟩
    simp [ArchetypeTable.existsEntity, ArchetypeTable.getAll] at hcs ⊢
    simp [hcs]

/-- Witness for C4: the invariant evaluated on a concrete reachable store. -/
theorem existsEntity_iff_nonempty_components_witness :
    ∃ cs, (ArchetypeTable.empty.add 0 (Position 1 2)).getAll 0 = some cs ∧
      cs ≠ [] :=
  (existsEntity_iff_nonempty_components _ 0
    (ReachableNE.add _ _ _ ReachableNE.empty)).mp (by decide)

/-- Counterexample for C4 as stated: `addAll` with an empty batch (exactly
what `App.addEntity(id)` with zero components performs) makes `exists`
return true for an entity with zero stored components. -/
theorem addAll_empty_batch_breaks_exists_invariant :
    (ArchetypeTable.empty.addAll 0 []).existsEntity 0 = true ∧
    (ArchetypeTable.empty.addAll 0 []).getAll 0 = some [] ∧
    ¬ ((ArchetypeTable.empty.addAll 0 []).existsEntity 0 = true ↔
        ∃ cs, (ArchetypeTable.empty.addAll 0 []).getAll 0 = some cs ∧
          cs ≠ []) := by
  refine ⟨by decide, by decide, ?_⟩
  intro hiff
  obtain ⟨cs, hcs, hne⟩ := hiff.mp (by decide)
  have h1 : (ArchetypeTable.empty.addAll 0 []).getAll 0 = some [] := by decide
  exact hne (Option.some_inj.mp (h1.symm.trans hcs)).symm

/-! ### C8: deletion completeness -/

theorem find_entity_mem (t : ArchetypeTable) (ks : List ComponentClass)
    (q : Query) (h : q ∈ t.find ks) : q.entity ∈ t.table.map Prod.fst := by
  simp only [ArchetypeTable.find, List.mem_filterMap] at h
  obtain ⟨p, hp, hq⟩ := h
  split at hq
  · cases hq
    exact List.mem_map_of_mem Prod.fst hp
  · exact absurd hq (by simp)

/-- C8: after `delete(e)` the entity no longer exists, `getAll` is absent
and no `find` result mentions it; deleting an absent entity is a no-op.
The `Nodup` hypothesis is the JS `Map` representation invariant (a `Map`
never holds two bindings with the same key). -/
theorem delete_completeness (t : ArchetypeTable) (e : Entity)
    (hnd : (t.table.map Prod.fst).Nodup) :
    (t.delete e).existsEntity e = false ∧
    (t.delete e).getAll e = none ∧
    (∀ ks : List ComponentClass, ∀ q ∈ (t.delete e).find ks, q.entity ≠ e) ∧
    (t.existsEntity e = false → t.delete e = t) := by
  have hkey := not_mem_keys_mapDelete t.table e hnd
  have hnone : mapGet (mapDelete t.table e) e = none :=
    (mapGet_eq_none_iff _ _).mpr hkey
  refine ⟨?_, ?_, ?_, ?_⟩
  · simp [ArchetypeTable.existsEntity, ArchetypeTable.delete, hnone]
  · simp [ArchetypeTable.getAll, ArchetypeTable.delete, hnone]
  · intro ks q hq hqe
    have := find_entity_mem _ ks q hq
    rw [hqe] at this
    exact hkey this
  · intro hex
    have hnone2 : mapGet t.table e = none := by
      cases hg : mapGet t.table e with
      | none => rfl
      | some v =>
          rw [ArchetypeTable.existsEntity, hg] at hex
          simp at hex
    exact congrArg ArchetypeTable.mk
      (mapDelete_of_not_mem t.table e ((mapGet_eq_none_iff _ _).mp hnone2))

/-- Witness for C8 on a concrete two-entity store. -/
theorem delete_completeness_witness :
    ((((ArchetypeTable.empty.add 10 (Position 0 0)).add 15
        (Velocity 1 1)).delete 10).existsEntity 10) = false ∧
    (((ArchetypeTable.empty.add 10 (Position 0 0)).add 15
        (Velocity 1 1)).delete 10).getAll 10 = none ∧
    (∀ ks : List ComponentClass,
      ∀ q ∈ (((ArchetypeTable.empty.add 10 (Position 0 0)).add 15
        (Velocity 1 1)).delete 10).find ks, q.entity ≠ 10) ∧
    (((ArchetypeTable.empty.add 10 (Position 0 0)).add 15
        (Velocity 1 1)).existsEntity 10 = false →
      ((ArchetypeTable.empty.add 10 (Position 0 0)).add 15
        (Velocity 1 1)).delete 10 =
        (ArchetypeTable.empty.add 10 (Position 0 0)).add 15 (Velocity 1 1)) :=
  delete_completeness _ 10 (by decide)

/-! ### C10: the empty requested-class list -/

/-- C10: `hasAll(e, [])` coincides with `exists(e)` (an entity matches the
empty class list vacuously iff it is in the store), and `find()` with no
requested classes returns one query with an empty tuple per stored entity,
in insertion order. -/
theorem find_empty_class_list (t : ArchetypeTable) :
    (∀ e, t.hasAll e [] = t.existsEntity e) ∧
    t.find [] = t.table.map (fun p => ⟨p.1, []⟩) := by
  constructor
  · intro e
    rw [ArchetypeTable.hasAll, ArchetypeTable.existsEntity]
    cases mapGet t.table e <;> simp
  · rw [ArchetypeTable.find]
    induction t.table with
    | nil => simp
    | cons p rest ih => simpa using ih

/-! ### C3: join correctness of `find` against `hasAll` -/

theorem isSome_find?_eq_any (cs : List Component) (f : Component → Bool) :
    (cs.find? f).isSome = cs.any f := by
  induction cs with
  | nil => rfl
  | cons c rest ih =>
      cases h : f c <;> simp [List.find?_cons, h, ih]

/-- The per-entry inclusion test of `find` (every requested class found a
match) coincides with the body of `hasAll` on the same component list. -/
theorem matchCond_eq_hasAll_entry (ks : List ComponentClass)
    (cs : List Component) :
    ((ks.map (fun k => cs.find? (fun c => c.isInstanceOf k))).all
        Option.isSome) =
      ks.all (fun k => cs.any (fun c => c.isInstanceOf k)) := by
  induction ks with
  | nil => rfl
  | cons k rest ih => simp [isSome_find?_eq_any, ih]

/-- With `Nodup` keys (the `Map` representation invariant), each stored
binding is exactly what `Map.get` returns for its key. -/
theorem nodup_mapGet_of_mem (t : List (Entity × List Component))
    (hnd : (t.map Prod.fst).Nodup) (p : Entity × List Component)
    (hp : p ∈ t) : mapGet t p.1 = some p.2 := by
  induction t with
  | nil => cases hp
  | cons q rest ih =>
      simp only [List.map_cons, List.nodup_cons] at hnd
      rcases List.mem_cons.mp hp with h1 | h1
      · subst h1
        simp [mapGet]
      · have hne : q.1 ≠ p.1 :=
          fun h => hnd.1 (h.symm ▸ List.mem_map_of_mem Prod.fst h1)
        simp only [mapGet, if_neg hne]
        exact ih hnd.2 h1

theorem all_isSome_filterMap_id (l : List (Option Component))
    (h : l.all Option.isSome = true) : (l.filterMap id).map some = l := by
  induction l with
  | nil => rfl
  | cons o rest ih =>
      cases o with
      | none => simp at h
      | some a =>
          simp only [List.all_cons, Option.isSome_some, Bool.true_and] at h
          simp [List.filterMap_cons, ih h]

theorem find_entities_aux (ks : List ComponentClass) (P : Entity → Bool)
    (l : List (Entity × List Component))
    (h : ∀ p ∈ l,
      ((ks.map (fun k => p.2.find? (fun c => c.isInstanceOf k))).all
        Option.isSome) = P p.1) :
    l.filterMap (fun p =>
      Option.map (fun q => q.entity)
        (if (ks.map (fun k => p.2.find? (fun c => c.isInstanceOf k))).all
            Option.isSome then
          some (⟨p.1, (ks.map (fun k =>
            p.2.find? (fun c => c.isInstanceOf k))).filterMap id⟩ : Query)
        else none)) =
      (l.map Prod.fst).filter P := by
  induction l with
  | nil => rfl
  | cons p rest ih =>
      have hp := h p (List.mem_cons_self p rest)
      have ihr := ih (fun p' hp' => h p' (List.mem_cons_of_mem _ hp'))
      cases hc : ((ks.map (fun k => p.2.find? (fun c =>
          c.isInstanceOf k))).all Option.isSome) with
      | false =>
          have hP : P p.1 = false := hp.symm.trans hc
          have hhead : Option.map (fun q => q.entity)
              (if (ks.map (fun k => p.2.find? (fun c =>
                  c.isInstanceOf k))).all Option.isSome then
                some (⟨p.1, (ks.map (fun k =>
                  p.2.find? (fun c => c.isInstanceOf k))).filterMap id⟩ :
                    Query)
              else none) = none := by
            rw [hc]
            rfl
          simp only [List.filterMap_cons, hhead, List.map_cons,
            List.filter_cons, hP, Bool.false_eq_true, if_false]
          exact ihr
      | true =>
          have hP : P p.1 = true := hp.symm.trans hc
          have hhead : Option.map (fun q => q.entity)
              (if (ks.map (fun k => p.2.find? (fun c =>
                  c.isInstanceOf k))).all Option.isSome then
                some (⟨p.1, (ks.map (fun k =>
                  p.2.find? (fun c => c.isInstanceOf k))).filterMap id⟩ :
                    Query)
              else none) = some p.1 := by
            rw [hc]
            rfl
          simp only [List.filterMap_cons, hhead, List.map_cons,
            List.filter_cons, hP, if_true]
          rw [ihr]

/-- C3: join correctness. With the `Map` representation invariant
(`Nodup` keys): an entity appears in `find(S)` iff `hasAll(e, S)`;
a returned tuple pairs each requested class, in requested order, with the
first stored component of that class (i.e. with `get`); and the entities
come out in the store's insertion order, with no extra sort. -/
theorem find_join_correct (t : ArchetypeTable) (ks : List ComponentClass)
    (hnd : (t.table.map Prod.fst).Nodup) :
    (∀ e, (∃ q ∈ t.find ks, q.entity = e) ↔ t.hasAll e ks = true) ∧
    (∀ q ∈ t.find ks,
      q.components.map some = ks.map (fun k => t.get q.entity k)) ∧
    (t.find ks).map (fun q => q.entity) =
      (t.table.map Prod.fst).filter (fun e => t.hasAll e ks) := by
  have hasAll_entry : ∀ p ∈ t.table,
      ((ks.map (fun k => p.2.find? (fun c => c.isInstanceOf k))).all
        Option.isSome) = t.hasAll p.1 ks := by
    intro p hp
    rw [matchCond_eq_hasAll_entry, ArchetypeTable.hasAll,
      nodup_mapGet_of_mem t.table hnd p hp]
  refine ⟨?_, ?_, ?_⟩
  · intro e
    constructor
    · rintro ⟨q, hq, rfl⟩
      simp only [ArchetypeTable.find, List.mem_filterMap] at hq
      obtain ⟨p, hp, hcond⟩ := hq
      split at hcond
      · cases hcond
        rw [← hasAll_entry p hp]
        assumption
      · exact absurd hcond (by simp)
    · intro hall
      rw [ArchetypeTable.hasAll] at hall
      cases hg : mapGet t.table e with
      | none => rw [hg] at hall; simp at hall
      | some cs =>
          rw [hg] at hall
          have hc : ((ks.map (fun k =>
              cs.find? (fun c => c.isInstanceOf k))).all Option.isSome) =
              true := by
            rw [matchCond_eq_hasAll_entry]
            exact hall
          refine ⟨⟨e, (ks.map (fun k =>
            cs.find? (fun c => c.isInstanceOf k))).filterMap id⟩, ?_, rfl⟩
          simp only [ArchetypeTable.find, List.mem_filterMap]
          exact ⟨(e, cs), mapGet_mem _ _ _ hg, by simp [hc]⟩
  · intro q hq
    simp only [ArchetypeTable.find, List.mem_filterMap] at hq
    obtain ⟨p, hp, hcond⟩ := hq
    split at hcond
    · cases hcond
      rw [all_isSome_filterMap_id _ (by assumption)]
      have hget : mapGet t.table p.1 = some p.2 :=
        nodup_mapGet_of_mem t.table hnd p hp
      apply List.map_congr_left
      intro k _
      simp [ArchetypeTable.get, hget]
    · exact absurd hcond (by simp)
  · rw [ArchetypeTable.find, List.map_filterMap]
    exact find_entities_aux ks (fun e => t.hasAll e ks) t.table hasAll_entry

/-- Witness for C3 on a concrete store: entity 10 owns a Velocity then a
Position (insertion order differs from the requested order), entity 15
owns only a Position. -/
theorem find_join_correct_witness :
    (∀ e, (∃ q ∈ ((ArchetypeTable.empty.add 10 (Velocity 3 4)).add 10
        (Position 1 2) |>.add 15 (Position 5 6)).find
          [positionClass, velocityClass], q.entity = e) ↔
      ((ArchetypeTable.empty.add 10 (Velocity 3 4)).add 10
        (Position 1 2) |>.add 15 (Position 5 6)).hasAll e
          [positionClass, velocityClass] = true) ∧
    (∀ q ∈ ((ArchetypeTable.empty.add 10 (Velocity 3 4)).add 10
        (Position 1 2) |>.add 15 (Position 5 6)).find
          [positionClass, velocityClass],
      q.components.map some = [positionClass, velocityClass].map (fun k =>
        ((ArchetypeTable.empty.add 10 (Velocity 3 4)).add 10
          (Position 1 2) |>.add 15 (Position 5 6)).get q.entity k)) ∧
    (((ArchetypeTable.empty.add 10 (Velocity 3 4)).add 10
        (Position 1 2) |>.add 15 (Position 5 6)).find
          [positionClass, velocityClass]).map (fun q => q.entity) =
      ((((ArchetypeTable.empty.add 10 (Velocity 3 4)).add 10
        (Position 1 2) |>.add 15 (Position 5 6)).table.map Prod.fst).filter
          (fun e => ((ArchetypeTable.empty.add 10 (Velocity 3 4)).add 10
            (Position 1 2) |>.add 15 (Position 5 6)).hasAll e
              [positionClass, velocityClass])) :=
  find_join_correct _ [positionClass, velocityClass] (by decide)

/-! ### C6 / C9: entity registration -/

theorem existsEntity_false_mapGet (t : ArchetypeTable) (e : Entity)
    (h : t.existsEntity e = false) : mapGet t.table e = none := by
  cases hg : mapGet t.table e with
  | none => rfl
  | some v =>
      rw [ArchetypeTable.existsEntity, hg] at h
      simp at h

theorem addAll_absent_getAll (t : ArchetypeTable) (e : Entity)
    (cs : List Component) (h : t.existsEntity e = false) :
    (t.addAll e cs).getAll e = some cs := by
  have hg := existsEntity_false_mapGet t e h
  simp [ArchetypeTable.addAll, hg, ArchetypeTable.getAll, mapGet_mapSet_self]

theorem addAll_absent_existsEntity (t : ArchetypeTable) (e : Entity)
    (cs : List Component) (h : t.existsEntity e = false) :
    (t.addAll e cs).existsEntity e = true := by
  have := addAll_absent_getAll t e cs h
  rw [ArchetypeTable.getAll] at this
  simp [ArchetypeTable.existsEntity, this]

/-- C6: registering an entity id twice reports the duplicate error on the
second `addEntity` call, and the second call leaves the whole app state —
in particular the store, which still holds exactly the first
registration's batch — untouched. -/
theorem addEntity_duplicate_error (app : App) (id : Entity)
    (cs1 cs2 : List Component)
    (h : app.archetypeTable.existsEntity id = false) :
    (app.addEntity (some id) cs1).1 = none ∧
    (app.addEntity (some id) cs1).2.archetypeTable.getAll id = some cs1 ∧
    ((app.addEntity (some id) cs1).2.addEntity (some id) cs2).1.isSome =
      true ∧
    ((app.addEntity (some id) cs1).2.addEntity (some id) cs2).2 =
      (app.addEntity (some id) cs1).2 := by
  have e1 : app.addEntity (some id) cs1 =
      (none, { app with
        archetypeTable := app.archetypeTable.addAll id cs1 }) := by
    simp [App.addEntity, h]
  have hex2 : (app.archetypeTable.addAll id cs1).existsEntity id = true :=
    addAll_absent_existsEntity app.archetypeTable id cs1 h
  refine ⟨by rw [e1], ?_, ?_, ?_⟩
  · rw [e1]
    exact addAll_absent_getAll _ _ _ h
  · rw [e1]
    simp [App.addEntity, hex2]
  · rw [e1]
    simp [App.addEntity, hex2]

/-- Witness for C6 starting from a fresh app. -/
theorem addEntity_duplicate_error_witness :
    (App.new.addEntity (some 10) [Position 0 0]).1 = none ∧
    (App.new.addEntity (some 10)
      [Position 0 0]).2.archetypeTable.getAll 10 = some [Position 0 0] ∧
    ((App.new.addEntity (some 10) [Position 0 0]).2.addEntity (some 10)
      [Velocity 1 1]).1.isSome = true ∧
    ((App.new.addEntity (some 10) [Position 0 0]).2.addEntity (some 10)
      [Velocity 1 1]).2 =
      (App.new.addEntity (some 10) [Position 0 0]).2 :=
  addEntity_duplicate_error App.new 10 [Position 0 0] [Velocity 1 1]
    (by decide)

/-- C9: `addEntity(null, ...)` first consumes `lastEntityId++`; when that
auto-assigned id already exists the call then throws, leaving the store
untouched but the counter incremented, so the next `addEntity(null, ...)`
call receives (and, when it is free, successfully registers) the id after
the one that collided. -/
theorem addEntity_null_consumes_id (app : App) (cs cs2 : List Component)
    (h1 : app.archetypeTable.existsEntity app.lastEntityId = true)
    (h2 : app.archetypeTable.existsEntity (app.lastEntityId + 1) = false) :
    (app.addEntity none cs).1.isSome = true ∧
    (app.addEntity none cs).2.archetypeTable = app.archetypeTable ∧
    (app.addEntity none cs).2.lastEntityId = app.lastEntityId + 1 ∧
    ((app.addEntity none cs).2.addEntity none cs2).1 = none ∧
    ((app.addEntity none cs).2.addEntity none cs2).2.archetypeTable.getAll
      (app.lastEntityId + 1) = some cs2 := by
  have e1 : app.addEntity none cs =
      (some ("Entity with id " ++ toString app.lastEntityId ++
        " already exists"),
       { app with lastEntityId := app.lastEntityId + 1 }) := by
    simp [App.addEntity, h1]
  have e2 : ({ app with lastEntityId := app.lastEntityId + 1 } :
      App).addEntity none cs2 =
      (none, { app with
        lastEntityId := app.lastEntityId + 1 + 1
        archetypeTable :=
          app.archetypeTable.addAll (app.lastEntityId + 1) cs2 }) := by
    simp [App.addEntity, h2]
  refine ⟨by rw [e1]; rfl, by rw [e1], by rw [e1], ?_, ?_⟩
  · rw [e1]
    rw [e2]
  · rw [e1]
    rw [e2]
    exact addAll_absent_getAll _ _ _ h2

/-- Witness for C9: entity 0 is registered explicitly, so the first
auto-assigned id collides with it. -/
theorem addEntity_null_consumes_id_witness :
    ((App.new.addEntity (some 0) [Position 0 0]).2.addEntity none
      [Velocity 1 1]).1.isSome = true ∧
    ((App.new.addEntity (some 0) [Position 0 0]).2.addEntity none
      [Velocity 1 1]).2.archetypeTable =
      (App.new.addEntity (some 0) [Position 0 0]).2.archetypeTable ∧
    ((App.new.addEntity (some 0) [Position 0 0]).2.addEntity none
      [Velocity 1 1]).2.lastEntityId =
      (App.new.addEntity (some 0) [Position 0 0]).2.lastEntityId + 1 ∧
    (((App.new.addEntity (some 0) [Position 0 0]).2.addEntity none
      [Velocity 1 1]).2.addEntity none [Velocity 2 2]).1 = none ∧
    (((App.new.addEntity (some 0) [Position 0 0]).2.addEntity none
      [Velocity 1 1]).2.addEntity none
        [Velocity 2 2]).2.archetypeTable.getAll
      ((App.new.addEntity (some 0) [Position 0 0]).2.lastEntityId + 1) =
      some [Velocity 2 2] :=
  addEntity_null_consumes_id (App.new.addEntity (some 0) [Position 0 0]).2
    [Velocity 1 1] [Velocity 2 2] (by decide) (by decide)

/-! ### C2: schedule advancement -/

theorem length_insertByOrder (s : Schedule) (l : List Schedule) :
    (insertByOrder s l).length = l.length + 1 := by
  induction l with
  | nil => rfl
  | cons x xs ih =>
      by_cases h : s.order ≤ x.order <;> simp [insertByOrder, h, ih]

theorem length_sortByOrder (l : List Schedule) :
    (sortByOrder l).length = l.length := by
  induction l with
  | nil => rfl
  | cons x xs ih => simp [sortByOrder, length_insertByOrder, ih]

theorem mem_insertByOrder (s : Schedule) (l : List Schedule) (x : Schedule) :
    x ∈ insertByOrder s l ↔ x = s ∨ x ∈ l := by
  induction l with
  | nil => simp [insertByOrder]
  | cons a as ih =>
      by_cases h : s.order ≤ a.order
      · simp [insertByOrder, h]
      · simp only [insertByOrder, if_neg h, List.mem_cons, ih]
        tauto

theorem sortByOrder_head_min (l : List Schedule) (hd : Schedule)
    (tl : List Schedule) (h : sortByOrder l = hd :: tl) :
    hd ∈ l ∧ ∀ x ∈ l, hd.order ≤ x.order := by
  induction l generalizing hd tl with
  | nil => cases h
  | cons a rest ih =>
      rw [sortByOrder] at h
      cases hs : sortByOrder rest with
      | nil =>
          have hrest : rest = [] :=
            List.length_eq_zero.mp (by rw [← length_sortByOrder, hs]; rfl)
          rw [hs, insertByOrder] at h
          cases h
          subst hrest
          exact ⟨List.mem_cons_self a [], by
            intro x hx
            rcases List.mem_cons.mp hx with rfl | hx
            · exact le_refl _
            · cases hx⟩
      | cons b tl2 =>
          have ihb := ih b tl2 hs
          rw [hs, insertByOrder] at h
          by_cases hab : a.order ≤ b.order
          · rw [if_pos hab] at h
            cases h
            refine ⟨List.mem_cons_self a rest, ?_⟩
            intro x hx
            rcases List.mem_cons.mp hx with rfl | hx
            · exact le_refl _
            · exact le_trans hab (ihb.2 x hx)
          · rw [if_neg hab] at h
            cases h
            refine ⟨List.mem_cons_of_mem a ihb.1, ?_⟩
            intro x hx
            rcases List.mem_cons.mp hx with rfl | hx
            · exact le_of_lt (lt_of_not_le hab)
            · exact ihb.2 x hx

theorem jsIndexOf_append_cons (pre : List Schedule) (cur : Schedule)
    (post : List Schedule) (h : cur ∉ pre) :
    jsIndexOf (pre ++ cur :: post) cur = (pre.length : Int) := by
  induction pre with
  | nil => simp [jsIndexOf]
  | cons x xs ih =>
      have hx : x ≠ cur := fun hh => h (hh ▸ List.mem_cons_self x xs)
      have hmem : cur ∉ xs := fun hh => h (List.mem_cons_of_mem _ hh)
      rw [List.cons_append, jsIndexOf, if_neg hx]
      simp only [ih hmem]
      have hn : ¬ ((xs.length : Int) < 0) := by omega
      rw [if_neg hn]
      simp

/-- C2 (amended): `advanceSchedule` on a fresh cursor sets the cursor to a
schedule of minimal `order` among the registered entries (head of the
stable ascending sort). On later calls it sets the cursor to the entry
after the first occurrence of the current schedule in the *unsorted*,
registration-order per-entry schedule list (`indexOf` + 1), or to `null`
past its end — not to the successor in the sorted distinct sequence the
claim describes. -/
theorem advanceSchedule_characterization (app : App)
    (h : app.scheduledSystems ≠ []) :
    (app.currentSchedule = none →
      ∃ s, (app.advanceSchedule).2.currentSchedule = some s ∧
        s ∈ app.scheduledSystems.map (fun ss => ss.schedule) ∧
        ∀ x ∈ app.scheduledSystems.map (fun ss => ss.schedule),
          s.order ≤ x.order) ∧
    (∀ (cur : Schedule) (pre post : List Schedule),
      app.currentSchedule = some cur →
      app.scheduledSystems.map (fun ss => ss.schedule) =
        pre ++ cur :: post →
      cur ∉ pre →
      (app.advanceSchedule).2.currentSchedule = post.head?) := by
  have hlen : ¬ (app.scheduledSystems.length = 0) :=
    fun h0 => h (List.length_eq_zero.mp h0)
  constructor
  · intro hc
    simp only [App.advanceSchedule, if_neg hlen, hc]
    cases hs : sortByOrder (app.scheduledSystems.map (fun ss => ss.schedule))
      with
    | nil =>
        exfalso
        have : (app.scheduledSystems.map (fun ss => ss.schedule)).length = 0 :=
          by rw [← length_sortByOrder, hs]; rfl
        simp only [List.length_map] at this
        exact hlen this
    | cons hd tl =>
        have hmin := sortByOrder_head_min _ hd tl hs
        exact ⟨hd, by simp [hs], hmin.1, hmin.2⟩
  · intro cur pre post hc hdecomp hnotmem
    simp only [App.advanceSchedule, if_neg hlen, hc]
    rw [hdecomp, jsIndexOf_append_cons pre cur post hnotmem]
    have ht : ((pre.length : Int) + 1).toNat = pre.length + 1 := by omega
    rw [ht]
    rw [List.getElem?_append_right (by omega)]
    have hi : pre.length + 1 - pre.length = 1 := by omega
    rw [hi]
    cases post <;> simp

/-- A do-nothing system instance used for concrete runner states (the
repository's test `NoopSystem` selects nothing and mutates nothing). -/
def noopSystem : SystemModel :=
  { select := fun _ => []
    update := fun t _ _ => t }

/-- Counterexample for C2 as stated: register a system on the update
schedule (order 1) first and one on the startup schedule (order 0) second.
The first `advanceSchedule()` correctly picks startup, but the next call
after startup yields `null` — not the update schedule the claim requires
for either registration order — because the successor is taken from the
unsorted registration-order list. -/
theorem advanceSchedule_after_startup_not_update :
    ((((App.new.addSystem updateSchedule noopSystem).addSystem
        startupSchedule noopSystem).advanceSchedule).2.currentSchedule =
      some startupSchedule) ∧
    (((((App.new.addSystem updateSchedule noopSystem).addSystem
        startupSchedule noopSystem).advanceSchedule).2.advanceSchedule).2.currentSchedule = none) ∧
    (none : Option Schedule) ≠ some updateSchedule := by
  refine ⟨by decide, by decide, by decide⟩

/-- Witness for C2 (amended): with the systems registered in ascending
schedule order the successor of startup in the registration-order list is
indeed the update schedule. -/
theorem advanceSchedule_characterization_witness :
    ((((App.new.addSystem startupSchedule noopSystem).addSystem
        updateSchedule noopSystem).advanceSchedule).2.advanceSchedule).2.currentSchedule = some updateSchedule :=
  (((advanceSchedule_characterization
      ((App.new.addSystem startupSchedule noopSystem).addSystem
        updateSchedule noopSystem).advanceSchedule.2
      (by
        intro hc
        exact absurd (congrArg List.length hc) (by decide))).2
    startupSchedule [] [updateSchedule] (by decide) (by decide)
    (by decide)).trans rfl)

/-! ### C5 / C7: the `step` execution order -/

theorem map_shift_idx (f : Nat → SEvent) (l : List Nat) (k : Nat) :
    (l.map (· + 1)).map (fun j => f (k + j)) =
      l.map (fun j => f (k + 1 + j)) := by
  rw [List.map_map]
  apply List.map_congr_left
  intro a _
  have harith : k + (a + 1) = k + 1 + a := by omega
  simp [Function.comp, harith]

theorem runBeforeHooks_trace (i : Nat) (hooks : List HookModel) (k : Nat)
    (q : List Query) (t : ArchetypeTable) :
    (runBeforeHooks i hooks k q t).2 =
      (beforeHookIdxs hooks).map (fun j => SEvent.beforeHook i (k + j)) := by
  induction hooks generalizing k t with
  | nil => rfl
  | cons h rest ih =>
      cases hb : h.beforeSystemUpdate with
      | some f =>
          simp only [runBeforeHooks, hb, beforeHookIdxs, Option.isSome_some,
            if_pos, List.map_cons, Nat.add_zero]
          rw [ih, map_shift_idx]
      | none =>
          simp only [runBeforeHooks, hb, beforeHookIdxs, Option.isSome_none,
            Bool.false_eq_true, if_false]
          rw [ih, map_shift_idx]

theorem runAfterHooks_trace (i : Nat) (hooks : List HookModel) (k : Nat)
    (q : List Query) (t : ArchetypeTable) :
    (runAfterHooks i hooks k q t).2 =
      (afterHookIdxs hooks).map (fun j => SEvent.afterHook i (k + j)) := by
  induction hooks generalizing k t with
  | nil => rfl
  | cons h rest ih =>
      cases hb : h.afterSystemUpdate with
      | some f =>
          simp only [runAfterHooks, hb, afterHookIdxs, Option.isSome_some,
            if_pos, List.map_cons, Nat.add_zero]
          rw [ih, map_shift_idx]
      | none =>
          simp only [runAfterHooks, hb, afterHookIdxs, Option.isSome_none,
            Bool.false_eq_true, if_false]
          rw [ih, map_shift_idx]

theorem runUpdates_trace (i : Nat) (sys : SystemModel) (k : Nat)
    (queries : List Query) (t : ArchetypeTable) :
    (runUpdates i sys k queries t).2 =
      (List.range queries.length).map (fun j => SEvent.update i (k + j)) := by
  induction queries generalizing k t with
  | nil => rfl
  | cons q rest ih =>
      simp only [runUpdates, List.length_cons, List.range_succ_eq_map,
        List.map_cons, Nat.add_zero]
      rw [ih, map_shift_idx]

theorem stepOne_trace (hooks : List HookModel) (i : Nat) (sys : SystemModel)
    (t : ArchetypeTable) :
    (stepOne hooks i sys t).2 = specBlock hooks i sys t := by
  simp only [stepOne, specBlock]
  by_cases h : (sys.select t).length = 0
  · rw [if_pos h, if_pos h]
  · rw [if_neg h, if_neg h]
    rw [runBeforeHooks_trace, runUpdates_trace, runAfterHooks_trace]
    simp

theorem mem_map_sysIdx (i : Nat) (g : Nat → SEvent)
    (hg : ∀ j, (g j).sysIdx = i) (l : List Nat) (ev : SEvent)
    (h : ev ∈ l.map g) : ev.sysIdx = i := by
  obtain ⟨j, -, rfl⟩ := List.mem_map.mp h
  exact hg j

theorem stepOne_sysIdx (hooks : List HookModel) (i : Nat) (sys : SystemModel)
    (t : ArchetypeTable) (ev : SEvent)
    (h : ev ∈ (stepOne hooks i sys t).2) : ev.sysIdx = i := by
  rw [stepOne_trace, specBlock] at h
  split at h
  · cases h
  · rcases List.mem_append.mp h with h1 | h1
    · exact mem_map_sysIdx i (SEvent.beforeHook i) (fun j => rfl) _ ev h1
    · rcases List.mem_append.mp h1 with h2 | h2
      · exact mem_map_sysIdx i (SEvent.update i) (fun j => rfl) _ ev h2
      · exact mem_map_sysIdx i (SEvent.afterHook i) (fun j => rfl) _ ev h2

theorem stepGo_append (hooks : List HookModel)
    (xs ys : List (Nat × SystemModel)) (t : ArchetypeTable) :
    stepGo hooks (xs ++ ys) t =
      ((stepGo hooks ys (stepGo hooks xs t).1).1,
       (stepGo hooks xs t).2 ++ (stepGo hooks ys (stepGo hooks xs t).1).2) := by
  induction xs generalizing t with
  | nil => simp [stepGo]
  | cons e rest ih =>
      simp only [List.cons_append, stepGo, List.append_eq]
      rw [ih]
      simp [List.append_assoc]

theorem stepGo_trace (hooks : List HookModel)
    (l : List (Nat × SystemModel)) (t : ArchetypeTable) :
    (stepGo hooks l t).2 =
      (l.zip (stepStates hooks l t)).flatMap
        (fun p => specBlock hooks p.1.1 p.1.2 p.2) := by
  induction l generalizing t with
  | nil => rfl
  | cons e rest ih =>
      simp only [stepGo, stepStates, List.zip_cons_cons, List.flatMap_cons]
      rw [stepOne_trace, ih]

theorem enumSystems_append (k : Nat) (xs ys : List SystemModel) :
    enumSystems k (xs ++ ys) =
      enumSystems k xs ++ enumSystems (k + xs.length) ys := by
  induction xs generalizing k with
  | nil => simp [enumSystems]
  | cons s rest ih =>
      have harith : k + 1 + rest.length = k + (rest.length + 1) := by omega
      simp only [List.cons_append, enumSystems, List.append_eq, ih, List.length_cons, harith]

theorem stepGo_enum_sysIdx_bounds (hooks : List HookModel)
    (l : List SystemModel) (k : Nat) (t : ArchetypeTable) (ev : SEvent)
    (h : ev ∈ (stepGo hooks (enumSystems k l) t).2) :
    k ≤ ev.sysIdx ∧ ev.sysIdx < k + l.length := by
  induction l generalizing k t with
  | nil => simp [stepGo, enumSystems] at h
  | cons s rest ih =>
      simp only [enumSystems, stepGo, List.mem_append] at h
      rcases h with h | h
      · have hx := stepOne_sysIdx hooks k s t ev h
        refine ⟨by omega, ?_⟩
        simp only [List.length_cons]
        omega
      · obtain ⟨h1, h2⟩ := ih (k + 1) (stepOne hooks k s t).1 h
        refine ⟨by omega, ?_⟩
        simp only [List.length_cons]
        omega

/-- C5: within one `step(schedule)` call the invocation trace is exactly
the system-by-system concatenation, in registration order among the
entries matching the schedule, of: every hook's defined
`beforeSystemUpdate` in hook-registration order, then one `update` per
matched query in result order, then every hook's defined
`afterSystemUpdate` in hook-registration order — each block computed at
the store state the system's turn has reached, and nothing of a later
system preceding anything of an earlier one. Every suspension point is
awaited in turn, so the sequential trace is the complete observable
order. -/
theorem step_invocation_order (app : App) (schedule : Schedule) :
    (app.step schedule).2 =
      ((enumSystems 0 (app.matchedSystems schedule)).zip
        (stepStates app.hooks (enumSystems 0 (app.matchedSystems schedule))
          app.archetypeTable)).flatMap
        (fun p => specBlock app.hooks p.1.1 p.1.2 p.2) :=
  stepGo_trace app.hooks (enumSystems 0 (app.matchedSystems schedule))
    app.archetypeTable

/-- C7: a system whose `select()` comes back empty at its turn inside
`step(schedule)` is skipped entirely: the trace contains no hook
invocation and no `update` invocation belonging to it (and `step`, being
a total function here as in the code, raises no error for it). -/
theorem step_skips_empty_select (app : App) (schedule : Schedule)
    (pre post : List SystemModel) (sys : SystemModel)
    (hdecomp : app.matchedSystems schedule = pre ++ sys :: post)
    (hsel : sys.select (app.stepPrefixState schedule pre.length) = []) :
    ∀ ev ∈ (app.step schedule).2, ev.sysIdx ≠ pre.length := by
  intro ev hev
  have hsel2 : sys.select
      ((stepGo app.hooks (enumSystems 0 pre) app.archetypeTable).1) = [] := by
    rw [App.stepPrefixState, hdecomp, List.take_left] at hsel
    exact hsel
  have hstep1 : stepOne app.hooks pre.length sys
      ((stepGo app.hooks (enumSystems 0 pre) app.archetypeTable).1) =
      ((stepGo app.hooks (enumSystems 0 pre) app.archetypeTable).1, []) := by
    simp [stepOne, hsel2]
  simp only [App.step, hdecomp] at hev
  rw [enumSystems_append, stepGo_append] at hev
  simp only [List.mem_append] at hev
  rcases hev with h | h
  · have hb := stepGo_enum_sysIdx_bounds app.hooks pre 0 _ ev h
    omega
  · simp only [Nat.zero_add, enumSystems, stepGo] at h
    rw [hstep1] at h
    simp only [List.nil_append] at h
    have hb := stepGo_enum_sysIdx_bounds app.hooks post (pre.length + 1) _ ev h
    omega

/-- A hook defining both callbacks and mutating nothing, for concrete
runner states. -/
def idHook : HookModel :=
  { beforeSystemUpdate := some (fun t _ => t)
    afterSystemUpdate := some (fun t _ => t) }

/-- Witness for C7: a registered hook and a system selecting nothing —
the step trace shows no `update` invocation for that system. -/
theorem step_skips_empty_select_witness :
    SEvent.update 0 0 ∉ (((App.new.addSystem updateSchedule
      noopSystem).addHook idHook).step updateSchedule).2 :=
  fun h =>
    step_skips_empty_select
      ((App.new.addSystem updateSchedule noopSystem).addHook idHook)
      updateSchedule [] [] noopSystem rfl rfl (SEvent.update 0 0) h rfl
